import Mathlib

/-!
Shallow embedding of the schedule-creator MILP model (models.py, main.py,
utils.py) together with proofs about its constraint families, its objective
fragments and the post-solve schedule extraction.

Decision variables are embedded as functions returning natural-number values
(binary variables carry the side condition value <= 1); constraints become
propositions over those values; solved cell values read back from the solver
are embedded as rationals.
-/

namespace ScheduleCreator

/-- Modelled from the spec: the fixed number of class days, the constant
NUMBER_OF_CLASS_DAYS of the constants module, which is not among the sources.
The spec fixes weekdays 1..5 and the output lists five weekday names. -/
def NUMBER_OF_CLASS_DAYS : Nat := 5

/-- Embeds utils.get_slot_count_per_day_: floor division of the total slot
count by the number of class days. -/
def get_slot_count_per_day_ (slot_count : Nat) : Nat :=
  slot_count / NUMBER_OF_CLASS_DAYS

/-- Window sum x_j of _set_constraints_consecutive_slots: the sum of the row
values a over the window [j, j+k). -/
def windowSum (a : Nat → Nat) (j k : Nat) : Nat :=
  (Finset.range k).sum (fun t => a (j + t))

/-- Row sum of _set_constraints_match_class_slot_count: the sum of the row
values a over all n slot columns. -/
def rowSum (a : Nat → Nat) (n : Nat) : Nat :=
  (Finset.range n).sum a

/-- The window starts kept by _set_constraints_consecutive_slots: j ranges over
range(n - class_slot_count + 1) and is skipped when
j % slot_count_per_day > slot_count_per_day - class_slot_count, the comparison
taken over the integers exactly as Python evaluates it. -/
def validStarts (n spd k : Nat) : List Nat :=
  (List.range (n + 1 - k)).filter
    (fun j => decide (((j % spd : Nat) : Int) ≤ (spd : Int) - (k : Int)))

/-- The two indicator constraints emitted for one window: z <= x / k (a linear
constraint over the rationals; k is the class slot count) and z >= x - k + 1. -/
def indicatorConstraints (k z x : Nat) : Prop :=
  (z : ℚ) ≤ (x : ℚ) / (k : ℚ) ∧ (x : Int) - (k : Int) + 1 ≤ (z : Int)

/-- The full constraint block _set_constraints_consecutive_slots emits for one
row: for every kept window start, the binary bound on the auxiliary variable z
and the two indicator constraints against the window sum, plus the final
constraint that the z values over all kept starts sum to 1. This describes
the emitted constraints when the block is built successfully; when no window
start is kept at all, the code never gets to emit a sum constraint (see
emitZSumConstraint for that error path). -/
def consecutiveSlotConstraints (a z : Nat → Nat) (n spd k : Nat) : Prop :=
  (∀ j ∈ validStarts n spd k,
      z j ≤ 1 ∧ indicatorConstraints k (z j) (windowSum a j k)) ∧
  ((validStarts n spd k).map z).sum = 1

/-- Embeds the final `model += Z == 1` of _set_constraints_consecutive_slots
for one row. Z is the running sum of the auxiliary z variables over the kept
window starts: when at least one start is kept, a real linear constraint
(the z values sum to 1) is added to the model; when every start was skipped,
Z is still the plain Python integer 0, so `Z == 1` evaluates to the bool
False and LpProblem.__iadd__ raises TypeError("A False object cannot be
passed as a constraint") at model-construction time, before any solve. -/
def emitZSumConstraint (z : Nat → Nat) (n spd k : Nat) : Except String Prop :=
  if validStarts n spd k = [] then
    Except.error "TypeError: A False object cannot be passed as a constraint"
  else
    Except.ok (((validStarts n spd k).map z).sum = 1)

/-- Embeds the Teacher record of models.py (slot preferences are codes 0..5,
with None for an unset entry). -/
structure Teacher where
  id : Nat
  last_name : String
  first_name : String
  slot_preferences : List (Option Nat)
deriving DecidableEq

/-- Embeds the Class_ record of models.py, after the teacher-id
cross-reference pass has replaced ids with Teacher records. -/
structure Class_ where
  id : Nat
  name : String
  group_name : String
  slot_count : Nat
  teachers : List Teacher
deriving DecidableEq

instance : Inhabited Class_ := ⟨⟨0, "", "", 0, []⟩⟩

/-- Embeds Class_.contains_teacher: the teacher id occurs among the ids of the
teachers of the class. -/
def Class_.contains_teacher (c : Class_) (t : Teacher) : Bool :=
  (c.teachers.map (fun x => x.id)).contains t.id

/-- Embeds the Group record of models.py. -/
structure Group where
  id : Nat
  name : String
  classes : List Class_
deriving DecidableEq

instance : Inhabited Group := ⟨⟨0, "", []⟩⟩

/-- Embeds the Slot record of models.py. -/
structure Slot where
  id : Nat
  weekday : Nat
  start_time : String
  end_time : String
  is_lunch_break : Bool
  is_evening : Bool
deriving DecidableEq

instance : Inhabited Slot := ⟨⟨0, 0, "", "", false, false⟩⟩

/-- Name order on groups, the key of the sort in Semester.init_groups. -/
def groupLE (g1 g2 : Group) : Prop := g1.name ≤ g2.name

instance : DecidableRel groupLE :=
  fun g1 g2 => inferInstanceAs (Decidable (g1.name ≤ g2.name))

instance : IsTotal Group groupLE := ⟨fun a b => le_total a.name b.name⟩

instance : IsTrans Group groupLE := ⟨fun _ _ _ h1 h2 => le_trans h1 h2⟩

/-- Name order on classes, the key of the sort in Group.sort_classes. -/
def classLE (c1 c2 : Class_) : Prop := c1.name ≤ c2.name

instance : DecidableRel classLE :=
  fun c1 c2 => inferInstanceAs (Decidable (c1.name ≤ c2.name))

instance : IsTotal Class_ classLE := ⟨fun a b => le_total a.name b.name⟩

instance : IsTrans Class_ classLE := ⟨fun _ _ _ h1 h2 => le_trans h1 h2⟩

/-- Embeds one iteration of the loop body of Semester.init_groups: append the
class to the group bearing its group name, creating that group first when the
name has not been seen (Python dict values keep insertion order, so the group
dict is a list in first-appearance order; fresh ids count up from 2, hence the
new id is the current group count plus one). -/
def addClassToGroups (gs : List Group) (c : Class_) : List Group :=
  if gs.any (fun g => decide (g.name = c.group_name)) then
    gs.map (fun g =>
      if g.name = c.group_name then { g with classes := g.classes ++ [c] } else g)
  else
    gs ++ [{ id := gs.length + 1, name := c.group_name, classes := [c] }]

/-- Embeds Semester.init_groups: start from the common group (id 1, name ""),
fold the semester's class list, then keep the common group first and sort the
remaining groups by name (Python's stable sorted, modelled by insertion
sort). -/
def init_groups (classes : List Class_) : List Group :=
  let gs := classes.foldl addClassToGroups [{ id := 1, name := "", classes := [] }]
  gs.headD default :: List.insertionSort groupLE gs.tail

/-- Embeds Group.sort_classes: sort the group's classes by name. -/
def Group.sortClasses (g : Group) : Group :=
  { g with classes := List.insertionSort classLE g.classes }

/-- Embeds Semester.sort_classes: sort every group's class list, then rebuild
the semester's flattened class list as the concatenation of the groups' class
lists in group order. -/
def sort_classes (gs : List Group) : List Group × List Class_ :=
  let gs2 := gs.map Group.sortClasses
  (gs2, (gs2.map (fun g => g.classes)).flatten)

/-- Concrete row for the C1 witness: slots 0 and 1 of n = 4 assigned. -/
def w1a : Nat → Nat := fun t => if t < 2 then 1 else 0

/-- Concrete auxiliary assignment for the C1 witness: indicator 1 at window
start 0, 0 elsewhere. -/
def w1z : Nat → Nat := fun j => if j = 0 then 1 else 0

/-- Class list for the C10 witness: one class with a non-empty group name. -/
def w10cs : List Class_ := [⟨1, "x", "A", 1, []⟩]

/-- Post-solve view of one semester schedule, as consumed by
set_global_constraints: the semester's frozen class list together with the 0/1
value of each cell variables_matrix[row][slot]. -/
structure SemesterAssignment where
  classes : List Class_
  x : Nat → Nat → Nat

instance : Inhabited SemesterAssignment := ⟨⟨[], fun _ _ => 0⟩⟩

/-- Embeds the inner double loop of set_global_constraints for one teacher and
one slot i: the sum, over the rows of one semester schedule whose class
contains the teacher, of the cell at slot i. -/
def semesterTeacherSum (sa : SemesterAssignment) (t : Teacher) (i : Nat) : Nat :=
  (Finset.range sa.classes.length).sum
    (fun j => if (sa.classes.getD j default).contains_teacher t then sa.x j i else 0)

/-- The sum set_global_constraints bounds: over every semester schedule, the
per-semester teacher sum at slot i. -/
def teacherSlotSum (sas : List SemesterAssignment) (t : Teacher) (i : Nat) : Nat :=
  (Finset.range sas.length).sum (fun s => semesterTeacherSum (sas.getD s default) t i)

/-- The constraint family set_global_constraints emits: one bound per teacher
of the catalog and per slot index. -/
def globalTeacherConstraints (teachers : List Teacher) (sas : List SemesterAssignment)
    (slotCount : Nat) : Prop :=
  ∀ t ∈ teachers, ∀ i < slotCount, teacherSlotSum sas t i ≤ 1

/-- Teacher for the C3 witness. -/
def w3t : Teacher := ⟨1, "", "", []⟩

/-- Class taught by the C3 witness teacher. -/
def w3c : Class_ := ⟨1, "", "", 1, [w3t]⟩

/-- One semester schedule for the C3 witness: one class row, no slot
assigned. -/
def w3sa : SemesterAssignment := ⟨[w3c], fun _ _ => 0⟩

/-- Row offset of the r-th non-common group in the variables matrix, as
accumulated by _set_constraints_class_limits_per_slot: the common group's
classes come first, then the classes of each earlier non-common group. -/
def groupOffset (common : Group) (rest : List Group) (r : Nat) : Nat :=
  common.classes.length + ((rest.take r).map (fun g => g.classes.length)).sum

/-- Sum of the cells of rows [offset, offset+len) at slot i. -/
def groupRowSum (x : Nat → Nat → Nat) (offset len i : Nat) : Nat :=
  (Finset.range len).sum (fun j => x (offset + j) i)

/-- Embeds _set_constraints_class_limits_per_slot for one slot i of a semester
whose group list is common :: rest: with no non-common group, the common-group
sum alone is bounded by 1; otherwise one bound per non-common group, on the
common-group sum plus that group's sum. -/
def classLimitConstraints (common : Group) (rest : List Group)
    (x : Nat → Nat → Nat) (i : Nat) : Prop :=
  if rest.isEmpty then
    groupRowSum x 0 common.classes.length i ≤ 1
  else
    ∀ r < rest.length,
      groupRowSum x 0 common.classes.length i +
        groupRowSum x (groupOffset common rest r) ((rest.getD r default).classes.length) i ≤ 1

/-- Common group for the parallel-tracks part of C4: no common class. -/
def w4common : Group := ⟨1, "", []⟩

/-- First non-common group for C4: one class, matrix row 0. -/
def w4ga : Group := ⟨2, "A", [⟨1, "", "A", 1, []⟩]⟩

/-- Second non-common group for C4: one class, matrix row 1. -/
def w4gb : Group := ⟨3, "B", [⟨2, "", "B", 1, []⟩]⟩

/-- Assignment for the parallel-tracks part of C4: rows 0 and 1 both active at
every slot. -/
def w4x : Nat → Nat → Nat := fun p _ => if p ≤ 1 then 1 else 0

/-- Common group for the C4 witness: two common classes, no other group. -/
def w4common2 : Group := ⟨1, "", [⟨1, "", "", 2, []⟩, ⟨2, "", "", 2, []⟩]⟩

/-- Assignment for the C4 witness: only row 0 active. -/
def w4x2 : Nat → Nat → Nat := fun p _ => if p = 0 then 1 else 0

/-- Embeds _get_objective_function_unallocated_class_slots evaluated at an
assignment: minus the sum of all m times n cells. -/
def unallocatedObjective (x : Nat → Nat → Nat) (m n : Nat) : ℚ :=
  -((Finset.range m).sum (fun i => (Finset.range n).sum (fun j => (x i j : ℚ))))

/-- Embeds _set_constraints_match_class_slot_count: each row's sum over the n
slot columns equals the slot count of the row's class. -/
def slotCountConstraints (x : Nat → Nat → Nat) (slotCounts : List Nat) (n : Nat) : Prop :=
  ∀ i < slotCounts.length, rowSum (x i) n = slotCounts.getD i 0

/-- Assignment for the C5 witness: every cell 1. -/
def w5x : Nat → Nat → Nat := fun _ _ => 1

/-- Embeds Python math.isclose with its default tolerances (rel_tol = 1e-9,
abs_tol = 0.0), over the rationals:
abs(a-b) <= max(rel_tol * max(abs(a), abs(b)), abs_tol). -/
def isclose (a b : ℚ) : Bool :=
  decide (|a - b| ≤ max ((1 / 1000000000) * max |a| |b|) 0)

/-- Embeds the cell classification of get_class_schedules:
is_variable_true = not math.isclose(value, 0). -/
def is_variable_true (v : ℚ) : Bool := !(isclose v 0)

/-- The claim's reading of the classification, for comparison: a value is
assigned when it is within the same small numeric tolerance of 1. -/
def spec_is_assigned (v : ℚ) : Bool := isclose v 1

/-- Solved row for the C9 counterexample: two separate runs, at index 0 and at
index 2. -/
def c9row : List ℚ := [1, 0, 1]

/-- Solved all-zero row for the C9 zero-run case. -/
def c9rowzero : List ℚ := [0, 0, 0]

/-- Class for the C9 counterexample. -/
def c9class : Class_ := ⟨1, "", "", 2, []⟩

/-- Three slots for the C9 counterexample, ids 1..3. -/
def c9slots : List Slot :=
  [⟨1, 1, "", "", false, false⟩, ⟨2, 1, "", "", false, false⟩, ⟨3, 1, "", "", false, false⟩]

/-- Embeds a ClassSchedule record: one contiguous block of a class. -/
structure ClassSchedule where
  class_ : Class_
  start_slot : Slot
  end_slot : Slot
deriving DecidableEq

/-- Start-slot id order on blocks, the key of the final sort of
get_class_schedules. -/
def scheduleLE (b1 b2 : ClassSchedule) : Prop :=
  b1.start_slot.id ≤ b2.start_slot.id

instance : DecidableRel scheduleLE :=
  fun b1 b2 => inferInstanceAs (Decidable (b1.start_slot.id ≤ b2.start_slot.id))

instance : IsTotal ClassSchedule scheduleLE :=
  ⟨fun a b => Nat.le_total a.start_slot.id b.start_slot.id⟩

instance : IsTrans ClassSchedule scheduleLE := ⟨fun _ _ _ h1 h2 => Nat.le_trans h1 h2⟩

/-- Embeds the inner scan of get_class_schedules over one row of truth values:
walking the columns from index j with the running count of true cells and the
previous cell's truth, it emits an (end_slot_index, slot_count) pair when a
true run ends (next value false, index j-1 closes it) or when the row ends on
a true value (last index closes it), resetting the count after a closed
run. -/
def scanRow : List Bool → Nat → Nat → Bool → List (Nat × Nat)
  | [], _, _, _ => []
  | cur :: rest, j, count, prev =>
    let count1 := if cur then count + 1 else count
    if prev && !cur then
      (j - 1, count1) :: scanRow rest (j + 1) 0 cur
    else if cur && rest.isEmpty then
      (j, count1) :: scanRow rest (j + 1) count1 cur
    else
      scanRow rest (j + 1) count1 cur

/-- One row of solved cell values classified and scanned from column 0 with
count 0 and no previous true cell, exactly as the loop of get_class_schedules
starts. -/
def scanRowValues (vals : List ℚ) : List (Nat × Nat) :=
  scanRow (vals.map is_variable_true) 0 0 false

/-- Solved row for the C7 witness: slots 3, 4 and 5 of 10 assigned. -/
def w7row : List ℚ := [0, 0, 0, 1, 1, 1, 0, 0, 0, 0]

/-- Class for the C7 witness: slot count 3. -/
def w7class : Class_ := ⟨1, "", "", 3, []⟩

/-- Ten slots for the C7 witness, ids 1..10. -/
def w7slots : List Slot := (List.range 10).map (fun i => ⟨i + 1, 1, "", "", false, false⟩)

/-- Run start for the single row of the C7 witness. -/
def w7s : Nat → Nat := fun _ => 3

/-- Run length for the single row of the C7 witness. -/
def w7l : Nat → Nat := fun _ => 3

/-- Embeds SemesterSchedule.get_class_schedules: scan each class row of the
solved matrix, build one ClassSchedule per emitted (end, count) pair with
start slot slots[end - count + 1] and end slot slots[end], and sort all blocks
by start-slot id (Python's stable list.sort, modelled by insertion sort). -/
def get_class_schedules (matrix : List (List ℚ)) (classes : List Class_)
    (slots : List Slot) : List ClassSchedule :=
  let blocks := (List.range classes.length).flatMap (fun i =>
    (scanRowValues (matrix.getD i [])).map (fun p =>
      { class_ := classes.getD i default
        start_slot := slots.getD (p.1 + 1 - p.2) default
        end_slot := slots.getD p.1 default }))
  List.insertionSort scheduleLE blocks

/-! Helper lemmas. -/

/-- The two rational and integer indicator constraints, under k >= 1, say
exactly k*z <= x and x < z + k over the naturals. -/
theorem indicatorConstraints_iff_nat (k z x : Nat) (hk : 1 ≤ k) :
    indicatorConstraints k z x ↔ (k * z ≤ x ∧ x + 1 ≤ z + k) := by
  have hk0 : (0 : ℚ) < (k : ℚ) := by exact_mod_cast hk
  unfold indicatorConstraints
  rw [le_div_iff₀ hk0]
  constructor
  · rintro ⟨h1, h2⟩
    refine ⟨?_, by omega⟩
    have hzx : ((z * k : Nat) : ℚ) ≤ ((x : Nat) : ℚ) := by push_cast; linarith
    have h := Nat.cast_le (α := ℚ).mp hzx
    rw [Nat.mul_comm z k] at h
    exact h
  · rintro ⟨h1, h2⟩
    refine ⟨?_, by omega⟩
    have h1' : z * k ≤ x := by rw [Nat.mul_comm z k]; exact h1
    have hzx : ((z * k : Nat) : ℚ) ≤ ((x : Nat) : ℚ) := Nat.cast_le.mpr h1'
    push_cast at hzx
    linarith

/-- A window sum of binary cells is at most the window length. -/
theorem windowSum_le (a : Nat → Nat) (j k : Nat) (hbin : ∀ t, t < k → a (j + t) ≤ 1) :
    windowSum a j k ≤ k := by
  calc windowSum a j k ≤ (Finset.range k).sum (fun _ => 1) :=
        Finset.sum_le_sum (fun t ht => hbin t (Finset.mem_range.mp ht))
    _ = k := by simp

/-- A sum of binary values over range k equalling k forces every value to 1. -/
theorem sum_saturated (k : Nat) (f : Nat → Nat) (hbin : ∀ t, t < k → f t ≤ 1)
    (hsum : (Finset.range k).sum f = k) : ∀ t, t < k → f t = 1 := by
  intro t ht
  by_contra hne
  have hlt : f t < 1 := by
    have := hbin t ht
    omega
  have : (Finset.range k).sum f < (Finset.range k).sum (fun _ => 1) :=
    Finset.sum_lt_sum (fun i hi => hbin i (Finset.mem_range.mp hi))
      ⟨t, Finset.mem_range.mpr ht, hlt⟩
  simp at this
  omega

/-- Two distinct members of a finset contribute at most the whole sum. -/
theorem two_distinct_le_sum {s : Finset ℕ} (f : ℕ → ℕ) {p q : ℕ}
    (hp : p ∈ s) (hq : q ∈ s) (hpq : p ≠ q) : f p + f q ≤ s.sum f := by
  have hq' : q ∈ s.erase p := Finset.mem_erase.mpr ⟨fun h => hpq h.symm, hq⟩
  have h1 : f q ≤ (s.erase p).sum f :=
    Finset.single_le_sum (fun i _ => Nat.zero_le (f i)) hq'
  have h2 : f p + (s.erase p).sum f = s.sum f := Finset.add_sum_erase s f hp
  omega

/-! C2: the ratio-based indicator bounds make z an exact indicator. -/

/-- C2: for a window start j of a class needing k slots, with binary window
cells and binary z, the two emitted constraints z <= x/k and z >= x - k + 1
hold exactly when z = 1 if and only if the window sum x equals k; in
particular they force z = 0 whenever x < k and z = 1 whenever x = k. -/
theorem indicator_constraints_exact (a : Nat → Nat) (j k z : Nat)
    (hk : 1 ≤ k) (hz : z ≤ 1) (hbin : ∀ t, t < k → a (j + t) ≤ 1) :
    indicatorConstraints k z (windowSum a j k) ↔
      (z = 1 ↔ windowSum a j k = k) := by
  rw [indicatorConstraints_iff_nat k z (windowSum a j k) hk]
  have hle := windowSum_le a j k hbin
  have hz01 : z = 0 ∨ z = 1 := by omega
  rcases hz01 with rfl | rfl <;> omega

/-- Witness for C2 at k = 2, z = 1, the all-ones row, window start 0. -/
theorem indicator_constraints_exact_witness :
    indicatorConstraints 2 1 (windowSum (fun _ => 1) 0 2) ↔
      (1 = 1 ↔ windowSum (fun _ => 1) 0 2 = 2) :=
  indicator_constraints_exact (fun _ => 1) 0 2 1 (by decide) (by decide)
    (fun t _ => Nat.le_refl 1)

/-! C1: the emitted constraints force a single contiguous in-day run. -/

/-- C1: every binary row assignment that satisfies the slot-count equality and
the consecutive-slot constraint block is exactly one contiguous run of k
consecutive slots starting at some kept window start j0, and that run lies
within a single day: k fits in a day, the starting offset j0 % spd is at most
spd - k, and every slot of the run is on the day of j0. -/
theorem consecutive_slots_single_run (a z : Nat → Nat) (n spd k : Nat)
    (hk : 1 ≤ k)
    (hbin : ∀ t, t < n → a t ≤ 1)
    (hrow : rowSum a n = k)
    (hcons : consecutiveSlotConstraints a z n spd k) :
    ∃ j0, j0 ∈ validStarts n spd k ∧ j0 + k ≤ n ∧
      k ≤ spd ∧ j0 % spd ≤ spd - k ∧
      (∀ t, t < n → (a t = 1 ↔ j0 ≤ t ∧ t < j0 + k)) ∧
      (∀ t, j0 ≤ t → t < j0 + k → t / spd = j0 / spd) := by
  obtain ⟨hz, hsum⟩ := hcons
  have hex : ∃ j0 ∈ validStarts n spd k, z j0 ≠ 0 := by
    by_contra h
    push_neg at h
    have hzero : ((validStarts n spd k).map z).sum = 0 := by
      apply List.sum_eq_zero
      intro x hx
      rcases List.mem_map.mp hx with ⟨j, hj, rfl⟩
      exact h j hj
    omega
  obtain ⟨j0, hj0mem, hzj0⟩ := hex
  have hz1 : z j0 = 1 := by
    have := (hz j0 hj0mem).1
    omega
  have hmem : j0 ∈ List.range (n + 1 - k) ∧
      decide (((j0 % spd : Nat) : Int) ≤ (spd : Int) - (k : Int)) = true :=
    List.mem_filter.mp hj0mem
  have hcond : ((j0 % spd : Nat) : Int) ≤ (spd : Int) - (k : Int) :=
    of_decide_eq_true hmem.2
  have hj0n : j0 + k ≤ n := by
    have := List.mem_range.mp hmem.1
    omega
  have hkspd : k ≤ spd := by omega
  have hmod : j0 % spd ≤ spd - k := by omega
  have hwbin : ∀ t, t < k → a (j0 + t) ≤ 1 := fun t ht => hbin (j0 + t) (by omega)
  have hwin : windowSum a j0 k = k := by
    have hind := (hz j0 hj0mem).2
    rw [indicatorConstraints_iff_nat k (z j0) (windowSum a j0 k) hk, hz1] at hind
    have hle := windowSum_le a j0 k hwbin
    omega
  have hone : ∀ t, t < k → a (j0 + t) = 1 :=
    sum_saturated k (fun t => a (j0 + t)) hwbin hwin
  have hsub : Finset.Ico j0 (j0 + k) ⊆ Finset.range n := by
    intro t ht
    rcases Finset.mem_Ico.mp ht with ⟨h1, h2⟩
    exact Finset.mem_range.mpr (by omega)
  have hico : (Finset.Ico j0 (j0 + k)).sum a = windowSum a j0 k := by
    rw [Finset.sum_Ico_eq_sum_range]
    simp [windowSum, Nat.add_sub_cancel_left]
  have hrow' : (Finset.range n).sum a = k := hrow
  have hzero : ((Finset.range n) \ Finset.Ico j0 (j0 + k)).sum a = 0 := by
    have hsplit : ((Finset.range n) \ Finset.Ico j0 (j0 + k)).sum a +
        (Finset.Ico j0 (j0 + k)).sum a = (Finset.range n).sum a :=
      Finset.sum_sdiff hsub
    omega
  have hout : ∀ t ∈ (Finset.range n) \ Finset.Ico j0 (j0 + k), a t = 0 :=
    Finset.sum_eq_zero_iff.mp hzero
  refine ⟨j0, hj0mem, hj0n, hkspd, hmod, ?_, ?_⟩
  · intro t ht
    constructor
    · intro hat
      by_contra hcon
      have htm : t ∈ (Finset.range n) \ Finset.Ico j0 (j0 + k) :=
        Finset.mem_sdiff.mpr
          ⟨Finset.mem_range.mpr ht, fun hc => hcon (Finset.mem_Ico.mp hc)⟩
      have := hout t htm
      omega
    · rintro ⟨h1, h2⟩
      have h := hone (t - j0) (by omega)
      have heq : j0 + (t - j0) = t := by omega
      rw [heq] at h
      exact h
  · intro t h1 h2
    have hspd : 0 < spd := by omega
    have hdm := Nat.div_add_mod j0 spd
    have ht' : t = spd * (j0 / spd) + (j0 % spd + (t - j0)) := by omega
    conv_lhs => rw [ht']
    rw [Nat.mul_add_div hspd]
    have hz0 : (j0 % spd + (t - j0)) / spd = 0 := Nat.div_eq_of_lt (by omega)
    omega

/-- The consecutive-slot constraint block holds at the C1 witness data
(n = 4 slots, 2 per day, class length 2). -/
theorem w1cons : consecutiveSlotConstraints w1a w1z 4 2 2 := by
  have hvs : validStarts 4 2 2 = [0, 2] := by decide
  constructor
  · intro j hj
    rw [hvs] at hj
    have hj' : j = 0 ∨ j = 2 := by simpa using hj
    rcases hj' with rfl | rfl
    · refine ⟨by decide, ?_⟩
      rw [indicatorConstraints_iff_nat 2 (w1z 0) (windowSum w1a 0 2) (by decide)]
      decide
    · refine ⟨by decide, ?_⟩
      rw [indicatorConstraints_iff_nat 2 (w1z 2) (windowSum w1a 2 2) (by decide)]
      decide
  · rw [hvs]
    decide

/-- Witness for C1 at the concrete data of w1a and w1z. -/
theorem consecutive_slots_single_run_witness :
    ∃ j0, j0 ∈ validStarts 4 2 2 ∧ j0 + 2 ≤ 4 ∧ 2 ≤ 2 ∧ j0 % 2 ≤ 2 - 2 ∧
      (∀ t, t < 4 → (w1a t = 1 ↔ j0 ≤ t ∧ t < j0 + 2)) ∧
      (∀ t, j0 ≤ t → t < j0 + 2 → t / 2 = j0 / 2) :=
  consecutive_slots_single_run w1a w1z 4 2 2 (by decide) (by decide) (by decide) w1cons

/-! C3: the global constraint forbids teacher double-booking. -/

/-- C3: when the per-teacher per-slot bounds of set_global_constraints hold,
no teacher of the catalog has two distinct class rows, in any semesters, both
assigned at the same slot. -/
theorem no_teacher_double_booking (teachers : List Teacher)
    (sas : List SemesterAssignment) (slotCount : Nat)
    (hglob : globalTeacherConstraints teachers sas slotCount)
    (t : Teacher) (ht : t ∈ teachers) (i : Nat) (hi : i < slotCount)
    (s1 s2 j1 j2 : Nat)
    (hs1 : s1 < sas.length) (hs2 : s2 < sas.length)
    (hj1 : j1 < (sas.getD s1 default).classes.length)
    (hj2 : j2 < (sas.getD s2 default).classes.length)
    (hne : s1 ≠ s2 ∨ j1 ≠ j2)
    (hc1 : ((sas.getD s1 default).classes.getD j1 default).contains_teacher t = true)
    (hc2 : ((sas.getD s2 default).classes.getD j2 default).contains_teacher t = true) :
    ¬((sas.getD s1 default).x j1 i = 1 ∧ (sas.getD s2 default).x j2 i = 1) := by
  rintro ⟨hx1, hx2⟩
  have hterm : ∀ sa : SemesterAssignment, ∀ j, j < sa.classes.length →
      (sa.classes.getD j default).contains_teacher t = true →
      sa.x j i ≤ semesterTeacherSum sa t i := by
    intro sa j hj hc
    have h := Finset.single_le_sum (f := fun j =>
        if (sa.classes.getD j default).contains_teacher t then sa.x j i else 0)
      (fun _ _ => Nat.zero_le _) (Finset.mem_range.mpr hj)
    simp only [if_pos hc] at h
    exact h
  have hsem : ∀ s, s < sas.length →
      semesterTeacherSum (sas.getD s default) t i ≤ teacherSlotSum sas t i := by
    intro s hs
    exact Finset.single_le_sum (f := fun s => semesterTeacherSum (sas.getD s default) t i)
      (fun _ _ => Nat.zero_le _) (Finset.mem_range.mpr hs)
  have hbound := hglob t ht i hi
  rcases eq_or_ne s1 s2 with rfl | hss
  · have hj12 : j1 ≠ j2 := by
      rcases hne with h | h
      · exact absurd rfl h
      · exact h
    have h2 := two_distinct_le_sum
      (fun j => if ((sas.getD s1 default).classes.getD j default).contains_teacher t
        then (sas.getD s1 default).x j i else 0)
      (Finset.mem_range.mpr hj1) (Finset.mem_range.mpr hj2) hj12
    simp only [if_pos hc1, if_pos hc2] at h2
    have h2' : (sas.getD s1 default).x j1 i + (sas.getD s1 default).x j2 i ≤
        semesterTeacherSum (sas.getD s1 default) t i := h2
    have h3 := hsem s1 hs1
    omega
  · have h2 := two_distinct_le_sum
      (fun s => semesterTeacherSum (sas.getD s default) t i)
      (Finset.mem_range.mpr hs1) (Finset.mem_range.mpr hs2) hss
    have h2' : semesterTeacherSum (sas.getD s1 default) t i +
        semesterTeacherSum (sas.getD s2 default) t i ≤ teacherSlotSum sas t i := h2
    have h3 := hterm (sas.getD s1 default) j1 hj1 hc1
    have h4 := hterm (sas.getD s2 default) j2 hj2 hc2
    omega

/-- Witness for C3: one teacher, the same one-class semester twice, the empty
assignment. -/
theorem no_teacher_double_booking_witness :
    ¬(([w3sa, w3sa].getD 0 default).x 0 0 = 1 ∧ ([w3sa, w3sa].getD 1 default).x 0 0 = 1) :=
  no_teacher_double_booking [w3t] [w3sa, w3sa] 1
    (by unfold globalTeacherConstraints; decide) w3t (by decide) 0 (by decide)
    0 1 0 0 (by decide) (by decide) (by decide) (by decide)
    (Or.inl (by decide)) (by decide) (by decide)

/-! C4: per-slot exclusivity between the common group and each track. -/

/-- A group row sum is the sum of the cells over the row interval. -/
theorem groupRowSum_eq_Ico (x : Nat → Nat → Nat) (off len i : Nat) :
    groupRowSum x off len i = (Finset.Ico off (off + len)).sum (fun p => x p i) := by
  rw [Finset.sum_Ico_eq_sum_range]
  simp [groupRowSum, Nat.add_sub_cancel_left]

/-- C4: under the constraints of _set_constraints_class_limits_per_slot, at
most one row drawn from the common group united with any single non-common
group is active at a slot (for a semester without non-common groups, at most
one common row); and the constraints do allow two different non-common groups
to each have one active class at the same slot, exhibited by the concrete
two-track semester w4ga, w4gb with assignment w4x. -/
theorem class_limits_per_slot_exclusivity :
    (∀ (common : Group) (rest : List Group) (x : Nat → Nat → Nat) (i : Nat),
      classLimitConstraints common rest x i →
      ((rest.isEmpty →
          ∀ p q, p < common.classes.length → q < common.classes.length →
          p ≠ q → ¬(x p i = 1 ∧ x q i = 1)) ∧
       (∀ r, r < rest.length → ∀ p q,
          (p < common.classes.length ∨
            (groupOffset common rest r ≤ p ∧
             p < groupOffset common rest r + (rest.getD r default).classes.length)) →
          (q < common.classes.length ∨
            (groupOffset common rest r ≤ q ∧
             q < groupOffset common rest r + (rest.getD r default).classes.length)) →
          p ≠ q → ¬(x p i = 1 ∧ x q i = 1)))) ∧
    (classLimitConstraints w4common [w4ga, w4gb] w4x 0 ∧
      w4x 0 0 = 1 ∧ w4x 1 0 = 1 ∧
      groupOffset w4common [w4ga, w4gb] 0 = 0 ∧ w4ga.classes.length = 1 ∧
      groupOffset w4common [w4ga, w4gb] 1 = 1 ∧ w4gb.classes.length = 1) := by
  constructor
  · intro common rest x i hcon
    constructor
    · intro hempty p q hp hq hpq
      rintro ⟨hx1, hx2⟩
      have hcon' : groupRowSum x 0 common.classes.length i ≤ 1 := by
        rw [classLimitConstraints, hempty] at hcon
        simpa using hcon
      rw [groupRowSum_eq_Ico, Nat.zero_add] at hcon'
      have hpm : p ∈ Finset.Ico 0 common.classes.length :=
        Finset.mem_Ico.mpr ⟨Nat.zero_le _, hp⟩
      have hqm : q ∈ Finset.Ico 0 common.classes.length :=
        Finset.mem_Ico.mpr ⟨Nat.zero_le _, hq⟩
      have h2 : x p i + x q i ≤ (Finset.Ico 0 common.classes.length).sum (fun p => x p i) :=
        two_distinct_le_sum (fun p => x p i) hpm hqm hpq
      omega
    · intro r hr p q hp hq hpq
      rintro ⟨hx1, hx2⟩
      have hrest : rest.isEmpty = false := by
        cases rest with
        | nil => simp at hr
        | cons g gs => rfl
      have hcon' : ∀ r2, r2 < rest.length →
          groupRowSum x 0 common.classes.length i +
            groupRowSum x (groupOffset common rest r2)
              ((rest.getD r2 default).classes.length) i ≤ 1 := by
        rw [classLimitConstraints, hrest] at hcon
        simpa using hcon
      have hbound := hcon' r hr
      rw [groupRowSum_eq_Ico, groupRowSum_eq_Ico, Nat.zero_add] at hbound
      have hoff : common.classes.length ≤ groupOffset common rest r :=
        Nat.le_add_right _ _
      have hdisj : Disjoint (Finset.Ico 0 common.classes.length)
          (Finset.Ico (groupOffset common rest r)
            (groupOffset common rest r + (rest.getD r default).classes.length)) := by
        apply Finset.disjoint_left.mpr
        intro v hv1 hv2
        have h1 := (Finset.mem_Ico.mp hv1).2
        have h2 := (Finset.mem_Ico.mp hv2).1
        omega
      have hunion : (Finset.Ico 0 common.classes.length ∪
          Finset.Ico (groupOffset common rest r)
            (groupOffset common rest r + (rest.getD r default).classes.length)).sum
            (fun p => x p i) =
          (Finset.Ico 0 common.classes.length).sum (fun p => x p i) +
          (Finset.Ico (groupOffset common rest r)
            (groupOffset common rest r + (rest.getD r default).classes.length)).sum
            (fun p => x p i) := Finset.sum_union hdisj
      have hpm : p ∈ Finset.Ico 0 common.classes.length ∪
          Finset.Ico (groupOffset common rest r)
            (groupOffset common rest r + (rest.getD r default).classes.length) := by
        rcases hp with h | ⟨h1, h2⟩
        · exact Finset.mem_union_left _ (Finset.mem_Ico.mpr ⟨Nat.zero_le _, h⟩)
        · exact Finset.mem_union_right _ (Finset.mem_Ico.mpr ⟨h1, h2⟩)
      have hqm : q ∈ Finset.Ico 0 common.classes.length ∪
          Finset.Ico (groupOffset common rest r)
            (groupOffset common rest r + (rest.getD r default).classes.length) := by
        rcases hq with h | ⟨h1, h2⟩
        · exact Finset.mem_union_left _ (Finset.mem_Ico.mpr ⟨Nat.zero_le _, h⟩)
        · exact Finset.mem_union_right _ (Finset.mem_Ico.mpr ⟨h1, h2⟩)
      have h2 : x p i + x q i ≤ (Finset.Ico 0 common.classes.length ∪
          Finset.Ico (groupOffset common rest r)
            (groupOffset common rest r + (rest.getD r default).classes.length)).sum
            (fun p => x p i) :=
        two_distinct_le_sum (fun p => x p i) hpm hqm hpq
      omega
  · refine ⟨?_, by decide, by decide, by decide, by decide, by decide, by decide⟩
    show ∀ r, r < ([w4ga, w4gb] : List Group).length →
      groupRowSum w4x 0 w4common.classes.length 0 +
        groupRowSum w4x (groupOffset w4common [w4ga, w4gb] r)
          (([w4ga, w4gb].getD r default).classes.length) 0 ≤ 1
    decide

/-- The class-limit constraint holds at the C4 witness data: two common
classes, no non-common group, only row 0 active. -/
theorem w4cons2 : classLimitConstraints w4common2 [] w4x2 0 := by
  show groupRowSum w4x2 0 w4common2.classes.length 0 ≤ 1
  decide

/-- Witness for C4: with two classes in the common group and no non-common
group, the two common rows cannot both be active at slot 0. -/
theorem class_limits_per_slot_exclusivity_witness :
    ¬(w4x2 0 0 = 1 ∧ w4x2 1 0 = 1) :=
  (class_limits_per_slot_exclusivity.1 w4common2 [] w4x2 0 w4cons2).1
    (by decide) 0 1 (by decide) (by decide) (by decide)

/-! C5: the unallocated-slot objective fragment is a per-solution constant. -/

/-- A list's sum equals the sum of its entries read by position. -/
theorem list_sum_eq_range_getD (l : List Nat) :
    l.sum = (Finset.range l.length).sum (fun i => l.getD i 0) := by
  induction l with
  | nil => simp
  | cons a t ih =>
    rw [List.sum_cons, List.length_cons, Finset.sum_range_succ']
    simp only [List.getD_cons_succ, List.getD_cons_zero]
    rw [← ih]
    omega

/-- C5: under the slot-count equality constraints of
_set_constraints_match_class_slot_count, the unallocated-slot objective
fragment equals minus the total of the class slot counts, so it takes the
same value on every feasible assignment, and adding it to any remaining
objective part never changes which of two feasible assignments has the
smaller objective. -/
theorem unallocated_objective_constant (x y : Nat → Nat → Nat)
    (slotCounts : List Nat) (n : Nat)
    (hx : slotCountConstraints x slotCounts n)
    (hy : slotCountConstraints y slotCounts n) :
    unallocatedObjective x slotCounts.length n = -(slotCounts.sum : ℚ) ∧
    unallocatedObjective y slotCounts.length n = unallocatedObjective x slotCounts.length n ∧
    ∀ rest : (Nat → Nat → Nat) → ℚ,
      (unallocatedObjective x slotCounts.length n + rest x ≤
        unallocatedObjective y slotCounts.length n + rest y ↔ rest x ≤ rest y) := by
  have key : ∀ w : Nat → Nat → Nat, slotCountConstraints w slotCounts n →
      unallocatedObjective w slotCounts.length n = -(slotCounts.sum : ℚ) := by
    intro w hw
    unfold unallocatedObjective
    rw [neg_inj]
    have hcast : ∀ i ∈ Finset.range slotCounts.length,
        (Finset.range n).sum (fun j => (w i j : ℚ)) = ((slotCounts.getD i 0 : Nat) : ℚ) := by
      intro i hi
      have h := hw i (Finset.mem_range.mp hi)
      rw [rowSum] at h
      rw [← Nat.cast_sum, h]
    rw [Finset.sum_congr rfl hcast, list_sum_eq_range_getD, Nat.cast_sum]
  refine ⟨key x hx, ?_, ?_⟩
  · rw [key x hx, key y hy]
  · intro rest
    rw [key x hx, key y hy]
    constructor <;> intro h <;> linarith

/-- Witness for C5 at the all-ones assignment, one class of slot count 1, one
slot column. -/
theorem unallocated_objective_constant_witness :
    unallocatedObjective w5x ([1] : List Nat).length 1 = -((([1] : List Nat).sum : Nat) : ℚ) ∧
    unallocatedObjective w5x ([1] : List Nat).length 1 =
      unallocatedObjective w5x ([1] : List Nat).length 1 ∧
    ∀ rest : (Nat → Nat → Nat) → ℚ,
      (unallocatedObjective w5x ([1] : List Nat).length 1 + rest w5x ≤
        unallocatedObjective w5x ([1] : List Nat).length 1 + rest w5x ↔
        rest w5x ≤ rest w5x) :=
  unallocated_objective_constant w5x w5x [1] 1
    (by unfold slotCountConstraints; decide) (by unfold slotCountConstraints; decide)

/-! C6: the extractor's cell classification. -/

/-- Counterexample to C6 as stated: the solved value 1/2 is far from 1 and is
not within the isclose tolerance of 1, yet get_class_schedules classifies it
as assigned, because the code tests closeness to 0, not closeness to 1. -/
theorem is_variable_true_half_counterexample :
    is_variable_true (1 / 2 : ℚ) = true ∧ spec_is_assigned (1 / 2 : ℚ) = false := by
  constructor
  · unfold is_variable_true isclose
    simp only [Bool.not_eq_true', decide_eq_false_iff_not]
    norm_num
  · unfold spec_is_assigned isclose
    simp only [decide_eq_false_iff_not]
    have h1 : |(1 / 2 : ℚ) - 1| = 1 / 2 := by
      rw [abs_of_nonpos (by norm_num)]
      norm_num
    have h2 : |(1 / 2 : ℚ)| = 1 / 2 := abs_of_nonneg (by norm_num)
    have h3 : |(1 : ℚ)| = 1 := abs_of_nonneg (by norm_num)
    rw [h1, h2, h3, max_eq_right (by norm_num : (1 / 2 : ℚ) ≤ 1),
      max_eq_left (by norm_num : (0 : ℚ) ≤ 1 / 1000000000 * 1)]
    norm_num

/-- C6 amended: a solved cell value is classified as assigned exactly when it
is not within the isclose tolerance of 0; with the default tolerances
(rel_tol 1e-9 and abs_tol 0) that means exactly when the value is nonzero, so
0.5 is classified as assigned, not as unassigned. -/
theorem is_variable_true_iff_ne_zero (v : ℚ) : is_variable_true v = true ↔ v ≠ 0 := by
  unfold is_variable_true isclose
  simp only [Bool.not_eq_true', decide_eq_false_iff_not]
  rw [sub_zero, abs_zero, max_eq_left (abs_nonneg v),
    max_eq_left (by positivity : (0 : ℚ) ≤ 1 / 1000000000 * |v|)]
  constructor
  · intro h hv
    subst hv
    simp at h
  · intro hv h
    have habs : 0 < |v| := abs_pos.mpr hv
    linarith

/-! C7: the extractor on rows with a single maximal run. -/

/-- The solved value 0 is classified as unassigned. -/
theorem is_variable_true_zero : is_variable_true 0 = false := by
  simp [is_variable_true, isclose]

/-- The solved value 1 is classified as assigned. -/
theorem is_variable_true_one : is_variable_true 1 = true := by
  unfold is_variable_true isclose
  simp only [Bool.not_eq_true', decide_eq_false_iff_not]
  rw [sub_zero, abs_one, abs_zero, max_eq_left zero_le_one,
    max_eq_left (by norm_num : (0 : ℚ) ≤ 1 / 1000000000 * 1)]
  norm_num

/-- One unfolding step of scanRow on a nonempty row. -/
theorem scanRow_cons (cur : Bool) (rest : List Bool) (j count : Nat) (prev : Bool) :
    scanRow (cur :: rest) j count prev =
      (let count1 := if cur then count + 1 else count
       if prev && !cur then (j - 1, count1) :: scanRow rest (j + 1) 0 cur
       else if cur && rest.isEmpty then (j, count1) :: scanRow rest (j + 1) count1 cur
       else scanRow rest (j + 1) count1 cur) := rfl

/-- Scanning only false cells after a false cell emits nothing. -/
theorem scanRow_falses (r : Nat) : ∀ j, scanRow (List.replicate r false) j 0 false = [] := by
  induction r with
  | zero => intro j; rfl
  | succ r ih =>
    intro j
    rw [List.replicate_succ, scanRow_cons]
    simpa using ih (j + 1)

/-- Scanning l true cells then r false cells after a true cell emits the
single closing pair, carrying the running count c. -/
theorem scanRow_trues (l : Nat) : ∀ r c j,
    scanRow (List.replicate l true ++ List.replicate r false) j c true =
      if l = 0 ∧ r = 0 then [] else [(j + l - 1, c + l)] := by
  induction l with
  | zero =>
    intro r c j
    simp only [List.replicate_zero, List.nil_append]
    cases r with
    | zero => rfl
    | succ r2 =>
      rw [List.replicate_succ, scanRow_cons]
      simp only [Bool.not_false, Bool.and_true, if_pos rfl]
      rw [scanRow_falses]
      simp
  | succ l2 ih =>
    intro r c j
    rw [List.replicate_succ, List.cons_append, scanRow_cons]
    by_cases hlr : l2 = 0 ∧ r = 0
    · obtain ⟨rfl, rfl⟩ := hlr
      simp [scanRow]
    · have hne : (List.replicate l2 true ++ List.replicate r false).isEmpty = false := by
        cases hl2 : l2 with
        | zero =>
          cases hr : r with
          | zero => exact absurd ⟨hl2, hr⟩ hlr
          | succ r2 => simp [List.replicate_succ]
        | succ l3 => simp [List.replicate_succ]
      simp only [hne, Bool.and_false, Bool.not_true, Bool.false_and, Bool.and_true,
        Bool.false_eq_true, if_false, if_true]
      rw [ih r (c + 1) (j + 1), if_neg hlr, if_neg (by omega : ¬(l2 + 1 = 0 ∧ r = 0))]
      have e1 : j + 1 + l2 - 1 = j + (l2 + 1) - 1 := by omega
      have e2 : c + 1 + l2 = c + (l2 + 1) := by omega
      rw [e1, e2]

/-- Entering a run of l >= 1 true cells followed by false cells from a false
cell emits exactly the one pair closing that run. -/
theorem scanRow_run (l : Nat) (hl : 1 ≤ l) (r c j : Nat) :
    scanRow (List.replicate l true ++ List.replicate r false) j c false = [(j + l - 1, c + l)] := by
  cases l with
  | zero => omega
  | succ l2 =>
    rw [List.replicate_succ, List.cons_append, scanRow_cons]
    by_cases hlr : l2 = 0 ∧ r = 0
    · obtain ⟨rfl, rfl⟩ := hlr
      simp [scanRow]
    · have hne : (List.replicate l2 true ++ List.replicate r false).isEmpty = false := by
        cases hl2 : l2 with
        | zero =>
          cases hr : r with
          | zero => exact absurd ⟨hl2, hr⟩ hlr
          | succ r2 => simp [List.replicate_succ]
        | succ l3 => simp [List.replicate_succ]
      simp only [hne, Bool.and_false, Bool.not_true, Bool.false_and, Bool.and_true,
        Bool.false_eq_true, if_false, if_true]
      rw [scanRow_trues l2 r (c + 1) (j + 1), if_neg hlr]
      have e1 : j + 1 + l2 - 1 = j + (l2 + 1) - 1 := by omega
      have e2 : c + 1 + l2 = c + (l2 + 1) := by omega
      rw [e1, e2]

/-- Leading false cells only shift the scan position. -/
theorem scanRow_skip_leading (s : Nat) : ∀ (rest : List Bool) (j : Nat),
    scanRow (List.replicate s false ++ rest) j 0 false = scanRow rest (j + s) 0 false := by
  induction s with
  | zero => intro rest j; simp
  | succ s2 ih =>
    intro rest j
    rw [List.replicate_succ, List.cons_append, scanRow_cons]
    simp only [Bool.and_false, Bool.false_and, Bool.not_false, Bool.false_eq_true,
      if_false, if_true]
    rw [ih rest (j + 1)]
    have e1 : j + 1 + s2 = j + (s2 + 1) := by omega
    rw [e1]

/-- A boolean row whose true cells are exactly the window [s, s+l) is three
replicate blocks. -/
theorem bools_eq_three_blocks (bs : List Bool) (s l : Nat) (hsl : s + l ≤ bs.length)
    (h : ∀ j, (hj : j < bs.length) → (bs[j] = true ↔ s ≤ j ∧ j < s + l)) :
    bs = List.replicate s false ++ List.replicate l true ++
      List.replicate (bs.length - s - l) false := by
  apply List.ext_getElem
  · simp
    omega
  · intro j h1 h2
    have hc := h j h1
    by_cases hjs : j < s
    · rw [List.getElem_append_left (by simp; omega),
        List.getElem_append_left (by simpa using hjs), List.getElem_replicate]
      have hnt : ¬(bs[j] = true) := fun ht => by
        have := hc.mp ht
        omega
      simp only [Bool.not_eq_true] at hnt
      exact hnt
    · by_cases hjl : j < s + l
      · rw [List.getElem_append_left (by simp; omega),
          List.getElem_append_right (by simpa using hjs), List.getElem_replicate]
        exact hc.mpr ⟨by omega, hjl⟩
      · rw [List.getElem_append_right (by simp; omega), List.getElem_replicate]
        have hnt : ¬(bs[j] = true) := fun ht => by
          have := hc.mp ht
          omega
        simp only [Bool.not_eq_true] at hnt
        exact hnt

/-- A solved row of values whose effectively-true cells are exactly the window
[s, s+l), l >= 1, scans to the single pair (s + l - 1, l). -/
theorem scanRowValues_single_run (vals : List ℚ) (s l : Nat)
    (hl : 1 ≤ l) (hsl : s + l ≤ vals.length)
    (h : ∀ j, (hj : j < vals.length) →
      (is_variable_true vals[j] = true ↔ s ≤ j ∧ j < s + l)) :
    scanRowValues vals = [(s + l - 1, l)] := by
  unfold scanRowValues
  have hbs : vals.map is_variable_true =
      List.replicate s false ++ List.replicate l true ++
        List.replicate ((vals.map is_variable_true).length - s - l) false := by
    apply bools_eq_three_blocks
    · simpa using hsl
    · intro j hj
      rw [List.getElem_map]
      exact h j (by simpa using hj)
  rw [hbs, List.append_assoc, scanRow_skip_leading, scanRow_run l hl]
  simp

/-- C7: when every class row of the solved matrix holds exactly one maximal
run of effectively-true values, the window [s i, s i + l i), the extractor
returns exactly one block per class, with start slot at index s i, the run's
first index (which equals end index minus run length plus one), and end slot
at the run's last index s i + l i - 1, and the returned list is sorted by
start-slot id. -/
theorem get_class_schedules_single_runs
    (matrix : List (List ℚ)) (classes : List Class_) (slots : List Slot)
    (s l : Nat → Nat)
    (_hm : matrix.length = classes.length)
    (_hrows : ∀ i, i < classes.length → (matrix.getD i []).length = slots.length)
    (hruns : ∀ i, i < classes.length →
      (1 ≤ l i ∧ s i + l i ≤ (matrix.getD i []).length ∧
        ∀ j, (hj : j < (matrix.getD i []).length) →
          (is_variable_true ((matrix.getD i [])[j]) = true ↔ s i ≤ j ∧ j < s i + l i))) :
    List.Perm (get_class_schedules matrix classes slots)
      ((List.range classes.length).map (fun i =>
        ⟨classes.getD i default, slots.getD (s i) default,
          slots.getD (s i + l i - 1) default⟩)) ∧
    List.Sorted scheduleLE (get_class_schedules matrix classes slots) := by
  have hinner : ∀ i ∈ List.range classes.length,
      (scanRowValues (matrix.getD i [])).map (fun p =>
        ({ class_ := classes.getD i default
           start_slot := slots.getD (p.1 + 1 - p.2) default
           end_slot := slots.getD p.1 default } : ClassSchedule)) =
      [⟨classes.getD i default, slots.getD (s i) default,
        slots.getD (s i + l i - 1) default⟩] := by
    intro i hi
    obtain ⟨h1, h2, h3⟩ := hruns i (List.mem_range.mp hi)
    rw [scanRowValues_single_run (matrix.getD i []) (s i) (l i) h1 h2 h3]
    simp only [List.map_cons, List.map_nil]
    have e1 : s i + l i - 1 + 1 - l i = s i := by omega
    rw [e1]
  have hblocks : (List.range classes.length).flatMap (fun i =>
      (scanRowValues (matrix.getD i [])).map (fun p =>
        ({ class_ := classes.getD i default
           start_slot := slots.getD (p.1 + 1 - p.2) default
           end_slot := slots.getD p.1 default } : ClassSchedule))) =
      (List.range classes.length).map (fun i =>
        ⟨classes.getD i default, slots.getD (s i) default,
          slots.getD (s i + l i - 1) default⟩) := by
    rw [List.flatMap_congr hinner]
    induction (List.range classes.length) with
    | nil => rfl
    | cons a t ih => simp only [List.flatMap_cons, List.map_cons, ih, List.singleton_append]
  constructor
  · unfold get_class_schedules
    rw [hblocks]
    exact List.perm_insertionSort scheduleLE _
  · unfold get_class_schedules
    exact List.sorted_insertionSort scheduleLE _

/-- The single-run hypothesis of C7 holds at the witness row, whose
effectively-true cells are exactly indices 3, 4 and 5. -/
theorem w7runs : ∀ i, i < ([w7class] : List Class_).length →
    (1 ≤ w7l i ∧ w7s i + w7l i ≤ (([w7row] : List (List ℚ)).getD i []).length ∧
      ∀ j, (hj : j < (([w7row] : List (List ℚ)).getD i []).length) →
        (is_variable_true ((([w7row] : List (List ℚ)).getD i [])[j]) = true ↔
          w7s i ≤ j ∧ j < w7s i + w7l i)) := by
  intro i hi
  have hi0 : i = 0 := by
    simp only [List.length_cons, List.length_nil] at hi
    omega
  subst hi0
  refine ⟨by decide, by decide, ?_⟩
  show ∀ j, (hj : j < w7row.length) →
    (is_variable_true (w7row[j]) = true ↔ 3 ≤ j ∧ j < 3 + 3)
  intro j hj
  have hj10 : j < 10 := by simpa [w7row] using hj
  interval_cases j <;>
    simp [w7row, is_variable_true_zero, is_variable_true_one]

/-- Witness for C7: the one-class matrix whose row is true exactly at indices
3, 4 and 5 with ten slots. -/
theorem get_class_schedules_single_runs_witness :
    List.Perm (get_class_schedules [w7row] [w7class] w7slots)
      ((List.range ([w7class] : List Class_).length).map (fun i =>
        ⟨([w7class] : List Class_).getD i default, w7slots.getD (w7s i) default,
          w7slots.getD (w7s i + w7l i - 1) default⟩)) ∧
    List.Sorted scheduleLE (get_class_schedules [w7row] [w7class] w7slots) :=
  get_class_schedules_single_runs [w7row] [w7class] w7slots w7s w7l
    (by decide) (by decide) w7runs

/-! C8: configuration inconsistencies are not rejected at construction. -/

/-- Counterexample to C8: a total of 11 slots is not divisible by the 5 class
days, yet the slots-per-day computation silently floor-divides and returns 2;
get_slot_count_per_day_ has no error path at all. -/
theorem config_not_fail_fast_counterexample :
    11 % NUMBER_OF_CLASS_DAYS ≠ 0 ∧ get_slot_count_per_day_ 11 = 2 := by
  constructor
  · decide
  · decide

/-- C8 amended: construction does not fail fast with a descriptive error;
when a class needs more slots than a day holds, every candidate window start
is skipped, so the running sum Z stays the plain integer 0 and the final
`model += Z == 1` hands the bool False to PuLP, which raises an undescriptive
TypeError at model-construction time: the program crashes before any solve,
producing neither a descriptive configuration error nor a solver
infeasibility status (and a non-divisible slot total is floor-divided
silently). -/
theorem oversized_class_construction_error (n spd k : Nat) (hk : spd < k) :
    validStarts n spd k = [] ∧
      ∀ z : Nat → Nat, emitZSumConstraint z n spd k =
        Except.error "TypeError: A False object cannot be passed as a constraint" := by
  have hempty : validStarts n spd k = [] := by
    unfold validStarts
    apply List.filter_eq_nil_iff.mpr
    intro j _
    simp only [decide_eq_true_eq]
    omega
  refine ⟨hempty, ?_⟩
  intro z
  unfold emitZSumConstraint
  rw [if_pos hempty]

/-- Witness for C8 amended: a class of 3 slots with 2 slots per day. -/
theorem oversized_class_construction_error_witness :
    validStarts 10 2 3 = [] ∧
      ∀ z : Nat → Nat, emitZSumConstraint z 10 2 3 =
        Except.error "TypeError: A False object cannot be passed as a constraint" :=
  oversized_class_construction_error 10 2 3 (by decide)

/-! C9: extraction anomalies are not surfaced. -/

/-- Counterexample to C9: on a row with two separate effectively-true runs the
extractor silently returns two blocks for the one class; no assertion or
defect signal exists on this path. -/
theorem extraction_not_surfaced_counterexample :
    (get_class_schedules [c9row] [c9class] c9slots).length = 2 := by
  have hmap : c9row.map is_variable_true = [true, false, true] := by
    simp [c9row, is_variable_true_zero, is_variable_true_one]
  have hscan : scanRowValues c9row = [(0, 1), (2, 1)] := by
    unfold scanRowValues
    rw [hmap]
    decide
  unfold get_class_schedules
  rw [List.length_insertionSort]
  simp [List.range_succ, List.range_zero, hscan, Function.comp]

/-- C9 amended: the extraction layer neither asserts nor reports: it silently
emits one block per maximal run, so the two-run row c9row yields two blocks
for its single class and the zero-run row c9rowzero yields no block at
all. -/
theorem extraction_silently_per_run :
    get_class_schedules [c9row] [c9class] c9slots =
      [⟨c9class, c9slots.getD 0 default, c9slots.getD 0 default⟩,
       ⟨c9class, c9slots.getD 2 default, c9slots.getD 2 default⟩] ∧
    get_class_schedules [c9rowzero] [c9class] c9slots = [] := by
  have hmap : c9row.map is_variable_true = [true, false, true] := by
    simp [c9row, is_variable_true_zero, is_variable_true_one]
  have hscan : scanRowValues c9row = [(0, 1), (2, 1)] := by
    unfold scanRowValues
    rw [hmap]
    decide
  have hmap0 : c9rowzero.map is_variable_true = [false, false, false] := by
    simp [c9rowzero, is_variable_true_zero]
  have hscan0 : scanRowValues c9rowzero = [] := by
    unfold scanRowValues
    rw [hmap0]
    decide
  constructor
  · unfold get_class_schedules
    simp [List.range_succ, List.range_zero, hscan, c9slots,
      List.insertionSort, List.orderedInsert, scheduleLE]
  · unfold get_class_schedules
    simp [List.range_succ, List.range_zero, hscan0, List.insertionSort]

/-! C10: invariants of init_groups and sort_classes. -/

/-- One step of the init_groups fold keeps the group list nonempty, keeps the
head group's name, and, when the class has a different group name than the
head, keeps the head group's class list. -/
theorem addClassToGroups_head (gs : List Group) (c : Class_) (hne : gs ≠ []) :
    addClassToGroups gs c ≠ [] ∧
    ((addClassToGroups gs c).headD default).name = (gs.headD default).name ∧
    (c.group_name ≠ "" → (gs.headD default).name = "" →
      ((addClassToGroups gs c).headD default).classes = (gs.headD default).classes) := by
  cases gs with
  | nil => exact absurd rfl hne
  | cons g t =>
    unfold addClassToGroups
    by_cases hany : (g :: t).any (fun g2 => decide (g2.name = c.group_name)) = true
    · rw [if_pos hany]
      rw [List.map_cons]
      by_cases hg : g.name = c.group_name
      · rw [if_pos hg]
        refine ⟨by simp, rfl, ?_⟩
        intro hc hname
        rw [List.headD_cons] at hname
        exact absurd (hname ▸ hg).symm hc
      · rw [if_neg hg]
        exact ⟨by simp, rfl, fun _ _ => rfl⟩
    · rw [if_neg hany]
      rw [List.cons_append]
      exact ⟨by simp, rfl, fun _ _ => rfl⟩

/-- Folding the class list over addClassToGroups keeps the group list
nonempty, keeps the head group's name, and keeps the head group's class list
when no class carries the head's name. -/
theorem init_fold_invariant (cs : List Class_) : ∀ gs : List Group, gs ≠ [] →
    (cs.foldl addClassToGroups gs ≠ [] ∧
     ((cs.foldl addClassToGroups gs).headD default).name = (gs.headD default).name ∧
     ((∀ c ∈ cs, c.group_name ≠ "") → (gs.headD default).name = "" →
       ((cs.foldl addClassToGroups gs).headD default).classes =
         (gs.headD default).classes)) := by
  induction cs with
  | nil => exact fun gs h => ⟨h, rfl, fun _ _ => rfl⟩
  | cons c cs ih =>
    intro gs hne
    simp only [List.foldl_cons]
    obtain ⟨h1, h2, h3⟩ := addClassToGroups_head gs c hne
    obtain ⟨i1, i2, i3⟩ := ih (addClassToGroups gs c) h1
    refine ⟨i1, by rw [i2, h2], ?_⟩
    intro hall hname
    have hc : c.group_name ≠ "" := hall c (by simp)
    have hrec := i3 (fun c2 hm => hall c2 (by simp [hm])) (by rw [h2]; exact hname)
    rw [hrec]
    exact h3 hc hname

/-- One step of the init_groups fold keeps the group names duplicate-free. -/
theorem addClassToGroups_names_nodup (gs : List Group) (c : Class_)
    (hnd : (gs.map (fun g => g.name)).Nodup) :
    ((addClassToGroups gs c).map (fun g => g.name)).Nodup := by
  unfold addClassToGroups
  by_cases hany : gs.any (fun g => decide (g.name = c.group_name)) = true
  · rw [if_pos hany]
    have hk : (gs.map (fun g => if g.name = c.group_name
        then { g with classes := g.classes ++ [c] } else g)).map (fun g => g.name) =
        gs.map (fun g => g.name) := by
      rw [List.map_map]
      apply List.map_congr_left
      intro g _
      by_cases hg : g.name = c.group_name
      · simp [hg]
      · simp [hg]
    rw [hk]
    exact hnd
  · rw [if_neg hany]
    rw [List.map_append]
    have hnotin : c.group_name ∉ gs.map (fun g => g.name) := by
      intro hmem
      rcases List.mem_map.mp hmem with ⟨g, hg, he⟩
      apply hany
      rw [List.any_eq_true]
      exact ⟨g, hg, by simp [he]⟩
    have hperm := List.perm_append_singleton c.group_name (gs.map (fun g => g.name))
    rw [show ([{ id := gs.length + 1, name := c.group_name, classes := [c] }] :
        List Group).map (fun g => g.name) = [c.group_name] from rfl]
    rw [hperm.nodup_iff]
    exact List.nodup_cons.mpr ⟨hnotin, hnd⟩

/-- Appending one class to the unique group carrying its name permutes the
concatenated class lists into the old concatenation plus that class. -/
theorem flatMap_update_one (c : Class_) : ∀ gs : List Group,
    (gs.map (fun g => g.name)).Nodup →
    (∃ g ∈ gs, g.name = c.group_name) →
    List.Perm ((gs.map (fun g => if g.name = c.group_name
        then { g with classes := g.classes ++ [c] } else g)).flatMap (fun g => g.classes))
      (gs.flatMap (fun g => g.classes) ++ [c]) := by
  intro gs
  induction gs with
  | nil =>
    intro _ hex
    simp at hex
  | cons g t ih =>
    intro hnd hex
    rw [List.map_cons, List.flatMap_cons, List.flatMap_cons]
    by_cases hg : g.name = c.group_name
    · rw [if_pos hg]
      have htail : t.map (fun g2 => if g2.name = c.group_name
          then { g2 with classes := g2.classes ++ [c] } else g2) = t := by
        have hid : ∀ g2 ∈ t, (if g2.name = c.group_name
            then { g2 with classes := g2.classes ++ [c] } else g2) = g2 := by
          intro g2 hg2
          rw [if_neg]
          intro he
          have hgmem : g.name ∈ t.map (fun g3 => g3.name) :=
            List.mem_map.mpr ⟨g2, hg2, by rw [he, hg]⟩
          exact (List.nodup_cons.mp hnd).1 hgmem
        rw [List.map_congr_left hid]
        simp
      rw [htail]
      have e1 : (g.classes ++ [c]) ++ t.flatMap (fun g2 => g2.classes) =
          g.classes ++ ([c] ++ t.flatMap (fun g2 => g2.classes)) := List.append_assoc ..
      have e2 : (g.classes ++ t.flatMap (fun g2 => g2.classes)) ++ [c] =
          g.classes ++ (t.flatMap (fun g2 => g2.classes) ++ [c]) := List.append_assoc ..
      rw [e1, e2]
      exact List.Perm.append_left g.classes List.perm_append_comm
    · rw [if_neg hg]
      have hex2 : ∃ g2 ∈ t, g2.name = c.group_name := by
        rcases hex with ⟨g2, hm, he⟩
        rcases List.mem_cons.mp hm with rfl | hm2
        · exact absurd he hg
        · exact ⟨g2, hm2, he⟩
      have hnd2 : (t.map (fun g2 => g2.name)).Nodup := (List.nodup_cons.mp hnd).2
      have ihp := ih hnd2 hex2
      rw [List.append_assoc]
      exact List.Perm.append_left g.classes ihp

/-- One step of the init_groups fold appends exactly the processed class to
the concatenated class lists, up to permutation. -/
theorem addClassToGroups_flatMap (gs : List Group) (c : Class_)
    (hnd : (gs.map (fun g => g.name)).Nodup) :
    List.Perm ((addClassToGroups gs c).flatMap (fun g => g.classes))
      (gs.flatMap (fun g => g.classes) ++ [c]) := by
  unfold addClassToGroups
  by_cases hany : gs.any (fun g => decide (g.name = c.group_name)) = true
  · rw [if_pos hany]
    apply flatMap_update_one c gs hnd
    rcases List.any_eq_true.mp hany with ⟨g, hg, hp⟩
    exact ⟨g, hg, of_decide_eq_true hp⟩
  · rw [if_neg hany]
    rw [List.flatMap_append gs _ (fun g => g.classes)]
    exact List.Perm.refl _

/-- The whole init_groups fold produces groups whose concatenated class lists
are a permutation of the starting concatenation followed by the folded
classes. -/
theorem fold_flatMap_perm (cs : List Class_) : ∀ gs : List Group,
    (gs.map (fun g => g.name)).Nodup →
    List.Perm ((cs.foldl addClassToGroups gs).flatMap (fun g => g.classes))
      (gs.flatMap (fun g => g.classes) ++ cs) := by
  induction cs with
  | nil =>
    intro gs _
    simp
  | cons c cs ih =>
    intro gs hnd
    rw [List.foldl_cons]
    have h1 := ih (addClassToGroups gs c) (addClassToGroups_names_nodup gs c hnd)
    have h2 := addClassToGroups_flatMap gs c hnd
    refine h1.trans ?_
    refine (List.Perm.append_right cs h2).trans ?_
    rw [List.append_assoc]
    exact List.Perm.refl _

/-- C10: after init_groups and sort_classes, the group list is nonempty, its
head is the common group named "" (empty when no class of the semester has an
empty group name), the remaining groups are sorted by name, every group's
class list is sorted by name, and the semester's class list is exactly the
concatenation of the groups' class lists in group order and is a permutation
of the original class list, so each class occupies exactly one row. -/
theorem init_groups_sort_classes_invariants (cs : List Class_) :
    init_groups cs ≠ [] ∧
    ((init_groups cs).headD default).name = "" ∧
    List.Sorted groupLE ((init_groups cs).tail) ∧
    ((∀ c ∈ cs, c.group_name ≠ "") → ((init_groups cs).headD default).classes = []) ∧
    (sort_classes (init_groups cs)).2 =
      (((sort_classes (init_groups cs)).1).map (fun g => g.classes)).flatten ∧
    (∀ g ∈ (sort_classes (init_groups cs)).1, List.Sorted classLE g.classes) ∧
    List.Perm ((sort_classes (init_groups cs)).2) cs := by
  have hbase : ([({ id := 1, name := "", classes := [] } : Group)] : List Group) ≠ [] := by
    simp
  obtain ⟨hne, hname, hcls⟩ := init_fold_invariant cs _ hbase
  have hinit : init_groups cs =
      (cs.foldl addClassToGroups [{ id := 1, name := "", classes := [] }]).headD default ::
        List.insertionSort groupLE
          (cs.foldl addClassToGroups [{ id := 1, name := "", classes := [] }]).tail := rfl
  refine ⟨?_, ?_, ?_, ?_, ?_, ?_, ?_⟩
  · rw [hinit]
    simp
  · rw [hinit, List.headD_cons]
    exact hname
  · rw [hinit, List.tail_cons]
    exact List.sorted_insertionSort groupLE _
  · intro hall
    rw [hinit, List.headD_cons]
    exact hcls hall rfl
  · rfl
  · intro g hg
    rcases List.mem_map.mp hg with ⟨g2, _, rfl⟩
    exact List.sorted_insertionSort classLE g2.classes
  · have hstep1 : (sort_classes (init_groups cs)).2 =
        ((init_groups cs).map Group.sortClasses).flatMap (fun g => g.classes) := rfl
    have hstep2 : List.Perm
        (((init_groups cs).map Group.sortClasses).flatMap (fun g => g.classes))
        ((init_groups cs).flatMap (fun g => g.classes)) := by
      rw [List.flatMap_map]
      apply List.Perm.flatMap_left
      intro g _
      exact List.perm_insertionSort classLE g.classes
    have hcons : (cs.foldl addClassToGroups
          [({ id := 1, name := "", classes := [] } : Group)]).headD default ::
        (cs.foldl addClassToGroups
          [({ id := 1, name := "", classes := [] } : Group)]).tail =
        cs.foldl addClassToGroups [({ id := 1, name := "", classes := [] } : Group)] := by
      cases hcase : cs.foldl addClassToGroups
          [({ id := 1, name := "", classes := [] } : Group)] with
      | nil => exact absurd hcase hne
      | cons g t => rfl
    have hstep3 : List.Perm ((init_groups cs).flatMap (fun g => g.classes))
        ((cs.foldl addClassToGroups
          [({ id := 1, name := "", classes := [] } : Group)]).flatMap
            (fun g => g.classes)) := by
      rw [hinit]
      have hperm := List.Perm.cons
        ((cs.foldl addClassToGroups
          [({ id := 1, name := "", classes := [] } : Group)]).headD default)
        (List.perm_insertionSort groupLE
          (cs.foldl addClassToGroups
            [({ id := 1, name := "", classes := [] } : Group)]).tail)
      rw [hcons] at hperm
      exact hperm.flatMap_right (fun g => g.classes)
    have hstep4 := fold_flatMap_perm cs
      [({ id := 1, name := "", classes := [] } : Group)] (by simp)
    rw [hstep1]
    refine hstep2.trans (hstep3.trans ?_)
    simpa using hstep4

/-- Witness for C10: one class with group name "A"; the common group exists
and is empty, and the rebuilt class list is a permutation of the input. -/
theorem init_groups_sort_classes_invariants_witness :
    ((init_groups w10cs).headD default).classes = [] ∧
    List.Perm ((sort_classes (init_groups w10cs)).2) w10cs :=
  ⟨(init_groups_sort_classes_invariants w10cs).2.2.2.1 (by decide),
   (init_groups_sort_classes_invariants w10cs).2.2.2.2.2.2⟩

end ScheduleCreator
